import Mathlib

/-!
Shallow embedding of `pymediainfo` (src/src/pymediainfo/__init__.py):
the `Track` attribute-record construction with its repeated-attribute
disambiguation pass, the `MediaInfo` result model built from an XML
element tree, the `_get_library` candidate loop, and the `parse`
streaming-acquisition engine (modelled as a trace of native-library
calls driven by an oracle for the external library's return values).
-/

namespace PyMediaInfo

/-- A Python value as it can appear in a `Track`'s `__dict__`:
`None`, a string, an int (after disambiguation), or a list. -/
inductive PyVal where
  | vNone : PyVal
  | vStr : String → PyVal
  | vInt : Int → PyVal
  | vList : List PyVal → PyVal
deriving Repr

/-- Python exceptions that the embedded code can raise. -/
inductive PyErr where
  | valueError : String → PyErr
  | typeError : PyErr
  | attributeError : PyErr
  | keyError : PyErr
  | fileNotFound : String → PyErr
  | runtimeError : String → PyErr
  | osError : String → PyErr
deriving Repr, DecidableEq

mutual

def PyVal.beq : PyVal → PyVal → Bool
  | .vNone, .vNone => true
  | .vStr a, .vStr b => a == b
  | .vInt a, .vInt b => a == b
  | .vList a, .vList b => PyVal.beqList a b
  | _, _ => false

def PyVal.beqList : List PyVal → List PyVal → Bool
  | [], [] => true
  | a :: as_, b :: bs => PyVal.beq a b && PyVal.beqList as_ bs
  | _, _ => false

end

instance : BEq PyVal := ⟨PyVal.beq⟩

mutual

theorem PyVal.beq_iff : ∀ a b : PyVal, PyVal.beq a b = true ↔ a = b
  | .vNone, .vNone => by simp [PyVal.beq]
  | .vNone, .vStr _ | .vNone, .vInt _ | .vNone, .vList _ => by simp [PyVal.beq]
  | .vStr _, .vNone | .vStr _, .vInt _ | .vStr _, .vList _ => by simp [PyVal.beq]
  | .vStr a, .vStr b => by simp [PyVal.beq]
  | .vInt _, .vNone | .vInt _, .vStr _ | .vInt _, .vList _ => by simp [PyVal.beq]
  | .vInt a, .vInt b => by simp [PyVal.beq]
  | .vList _, .vNone | .vList _, .vStr _ | .vList _, .vInt _ => by simp [PyVal.beq]
  | .vList a, .vList b => by
      simp only [PyVal.beq, PyVal.vList.injEq]
      exact PyVal.beqList_iff a b

theorem PyVal.beqList_iff : ∀ a b : List PyVal, PyVal.beqList a b = true ↔ a = b
  | [], [] => by simp [PyVal.beqList]
  | [], _ :: _ => by simp [PyVal.beqList]
  | _ :: _, [] => by simp [PyVal.beqList]
  | a :: as_, b :: bs => by
      simp only [PyVal.beqList, Bool.and_eq_true, List.cons.injEq]
      exact and_congr (PyVal.beq_iff a b) (PyVal.beqList_iff as_ bs)

end

instance : DecidableEq PyVal := fun a b =>
  decidable_of_iff (PyVal.beq a b = true) (PyVal.beq_iff a b)

/-- A `Track`'s `__dict__`: an insertion-ordered association list. -/
abbrev Dict := List (String × PyVal)

/-- `object.__getattribute__` restricted to the instance dict:
`none` models an `AttributeError`. -/
def getAttrRaw (d : Dict) (k : String) : Option PyVal :=
  (d.find? (fun p => p.1 == k)).map (fun p => p.2)

/-- `Track.__getattribute__`: absent attributes read as `None`
instead of raising. -/
def getattr (d : Dict) (k : String) : PyVal :=
  (getAttrRaw d k).getD .vNone

/-- `setattr` on the instance dict: update in place if the key exists
(Python dicts keep insertion order on update), else append. -/
def setAttr (d : Dict) (k : String) (v : PyVal) : Dict :=
  if (d.find? (fun p => p.1 == k)).isSome then
    d.map (fun p => if p.1 == k then (k, v) else p)
  else
    d ++ [(k, v)]

/-- Interpret a maximal digit string as a natural number. -/
def digitsToNat (cs : List Char) : Nat :=
  cs.foldl (fun acc c => acc * 10 + (c.toNat - Char.toNat '0')) 0

/-- Parse a nonempty all-digit character list. -/
def parseDigits (cs : List Char) : Option Nat :=
  if cs ≠ [] && cs.all (fun c => c.isDigit) then some (digitsToNat cs) else none

/-- Strip a leading/trailing character class from a character list
(Python's `str.strip`). -/
def stripEdgesList (p : Char → Bool) (cs : List Char) : List Char :=
  ((cs.dropWhile p).reverse.dropWhile p).reverse

/-- Python's `int(s)` on a `str`: strip surrounding whitespace, optional
sign, then a nonempty run of decimal digits; anything else raises
`ValueError` (modelled as `none`). -/
def pyIntOfString (s : String) : Option Int :=
  match stripEdgesList (fun c => c.isWhitespace) s.data with
  | [] => none
  | '+' :: rest => (parseDigits rest).map (fun n => (n : Int))
  | '-' :: rest => (parseDigits rest).map (fun n => -(n : Int))
  | cs => (parseDigits cs).map (fun n => (n : Int))

/-- Python's `int(x)` applied to a stored value: ints pass through,
strings parse or raise `ValueError`, `None` and lists raise `TypeError`. -/
def intOf : PyVal → Except PyErr Int
  | .vInt n => .ok n
  | .vStr s =>
      match pyIntOfString s with
      | some n => .ok n
      | none => .error (.valueError s)
  | .vNone => .error .typeError
  | .vList _ => .error .typeError

/-- `elem.tag.lower().strip().strip("_")`, with the `id` → `track_id`
special case. -/
def normalizeName (tag : String) : String :=
  let lowered := tag.data.map Char.toLower
  let n := String.mk (stripEdgesList (fun c => c == '_')
    (stripEdgesList (fun c => c.isWhitespace) lowered))
  if n == "id" then "track_id" else n

/-- One XML element: tag, attributes, text content (`none` when the
element has no text), children. -/
structure XElem where
  tag : String
  attrib : List (String × String)
  text : Option String
  children : List XElem
deriving Repr

/-- State of `Track.__init__`'s first pass: the instance dict and the
`repeated_attributes` accumulator. -/
structure BuildState where
  dict : Dict
  repeated : List (String × String)
deriving Repr

/-- Body of the first `for elem in xml_dom_fragment` loop of
`Track.__init__`: set a fresh attribute, or record a repeat in the
`other_<name>` list (raising `AttributeError` if that slot holds a
non-list, as `.append` would). -/
def addElem (st : BuildState) (e : XElem) : Except PyErr BuildState :=
  let name := normalizeName e.tag
  let v : PyVal := match e.text with
    | some s => .vStr s
    | none => .vNone
  if getattr st.dict name == PyVal.vNone then
    .ok { st with dict := setAttr st.dict name v }
  else
    let other := "other_" ++ name
    let repeated := st.repeated ++ [(name, other)]
    match getattr st.dict other with
    | .vNone => .ok { dict := setAttr st.dict other (.vList [v]), repeated }
    | .vList xs => .ok { dict := setAttr st.dict other (.vList (xs ++ [v])), repeated }
    | _ => .error .attributeError

/-- The inner `for other_value in getattr(self, other_key)` scan of the
disambiguation pass: promote the first int-coercible element to the
scalar slot and append the old scalar to the list, stopping there;
`ValueError` continues the scan, any other error propagates. -/
def promoteScan (d : Dict) (pk ok_ : String) : List PyVal → Except PyErr Dict
  | [] => .ok d
  | v :: rest =>
      match intOf v with
      | .ok n =>
          let current := getattr d pk
          let d1 := setAttr d pk (.vInt n)
          match getattr d1 ok_ with
          | .vList xs => .ok (setAttr d1 ok_ (.vList (xs ++ [current])))
          | _ => .error .attributeError
      | .error (.valueError _) => promoteScan d pk ok_ rest
      | .error e => .error e

/-- One iteration of the `for primary_key, other_key in
repeated_attributes` disambiguation loop. Iterating a string yields its
characters; iterating `None` or an int raises `TypeError`. -/
def disambiguate (d : Dict) (pk ok_ : String) : Except PyErr Dict :=
  match intOf (getattr d pk) with
  | .ok n => .ok (setAttr d pk (.vInt n))
  | .error (.valueError _) =>
      match getattr d ok_ with
      | .vList xs => promoteScan d pk ok_ xs
      | .vStr s => promoteScan d pk ok_ (s.data.map (fun c => .vStr (String.mk [c])))
      | _ => .error .typeError
  | .error e => .error e

/-- The whole disambiguation pass over `repeated_attributes`. -/
def runDisamb (d : Dict) : List (String × String) → Except PyErr Dict
  | [] => .ok d
  | (pk, ok_) :: rest => do
      let d1 ← disambiguate d pk ok_
      runDisamb d1 rest

/-- A constructed `Track`: its instance dict. -/
structure Track where
  dict : Dict
deriving Repr, DecidableEq

/-- `Track.__init__` given the `type` attribute value and the child
elements: first pass sets attributes and collects repeats, second pass
disambiguates. -/
def Track.init (ttype : String) (elems : List XElem) : Except PyErr Track := do
  let st ← elems.foldlM addElem
    { dict := [("track_type", PyVal.vStr ttype)], repeated := [] }
  let d ← runDisamb st.dict st.repeated
  .ok ⟨d⟩

/-- Look up an XML attribute. -/
def lookupAttrib (attrs : List (String × String)) (k : String) : Option String :=
  (attrs.find? (fun p => p.1 == k)).map (fun p => p.2)

/-- `Track(xml_dom_fragment)`: `attrib["type"]` raises `KeyError` when
absent, then the two construction passes run. -/
def Track.ofElem (e : XElem) : Except PyErr Track := do
  match lookupAttrib e.attrib "type" with
  | some t => Track.init t e.children
  | none => .error .keyError

/-- `Track.__getattribute__` on a constructed track. -/
def Track.getattr (t : Track) (k : String) : PyVal :=
  PyMediaInfo.getattr t.dict k

/-! ## `MediaInfo.__init__` (the output model builder) -/

/-- Direct children of an element carrying a given tag, in document
order (`iterfind` with a single tag). -/
def childrenWithTag (e : XElem) (t : String) : List XElem :=
  e.children.filter (fun c => c.tag == t)

/-- The track elements selected by `MediaInfo.__init__`:
`xpath = "track" if xml_dom.tag == "File" else "File/track"`. -/
def selectTrackElems (root : XElem) : List XElem :=
  if root.tag == "File" then
    childrenWithTag root "track"
  else
    (childrenWithTag root "File").flatMap (fun f => childrenWithTag f "track")

/-- `MediaInfo.__init__` on an already-parsed element tree: build one
`Track` per selected element, in document order. -/
def MediaInfo.ofRoot (root : XElem) : Except PyErr (List Track) :=
  (selectTrackElems root).mapM Track.ofElem

/-! ## `MediaInfo._get_library` (the native library binding) -/

/-- Python tuple `<` on int tuples (lexicographic, shorter prefix is
smaller). -/
def verLt : List Int → List Int → Bool
  | [], [] => false
  | [], _ :: _ => true
  | _ :: _, [] => false
  | x :: xs, y :: ys => x < y || (x == y && verLt xs ys)

/-- Python tuple `>=` on int tuples. -/
def verGe (a b : List Int) : Bool := !verLt a b

/-- `re.search(r"^MediaInfoLib - v(\S+)", version)`: the pattern is
anchored at the start of the string; the group is the maximal nonempty
run of non-whitespace characters after the fixed prefix. -/
def matchVersion (s : String) : Option String :=
  if List.isPrefixOf ("MediaInfoLib - v".data) s.data then
    let grp := (s.data.drop 16).takeWhile (fun c => !c.isWhitespace)
    if grp == [] then none else some (String.mk grp)
  else none

/-- Python's `str.split(sep)` for a one-character separator:
`"".split(".") == [""]`, `"a.".split(".") == ["a", ""]`. -/
def splitOnChar (sep : Char) : List Char → List (List Char)
  | [] => [[]]
  | c :: rest =>
      let r := splitOnChar sep rest
      if c == sep then [] :: r
      else
        match r with
        | g :: gs => (c :: g) :: gs
        | [] => [[c]]

/-- `tuple(int(_) for _ in lib_version_str.split("."))`: a component
that is not a plain integer raises `ValueError` (uncaught by the
surrounding `except OSError`). -/
def parseVersionTuple (s : String) : Except PyErr (List Int) :=
  ((splitOnChar '.' s.data).map String.mk).mapM (fun part =>
    match pyIntOfString part with
    | some n => Except.ok n
    | none => Except.error (.valueError part))

/-- The candidate loop of `MediaInfo._get_library`. `load p` models
attempting `CDLL(p)`, defining prototypes, creating a handle and
querying `Info_Version`: `.error msg` is an `OSError` (collected, next
candidate tried), `.ok v` is the returned version string. A version
string that does not match the fixed format raises `RuntimeError`
immediately; a matching but non-integer dotted component raises
`ValueError`; neither is caught by `except OSError`. -/
def getLibraryAux (load : String → Except String String) (allPaths : List String) :
    List String → List String → Except PyErr (String × List Int)
  | [], excs =>
      .error (.osError ("Failed to load library from " ++
        String.intercalate ", " allPaths ++ " - " ++ String.intercalate ", " excs))
  | p :: rest, excs =>
      match load p with
      | .error msg => getLibraryAux load allPaths rest (excs ++ [msg])
      | .ok version =>
          match matchVersion version with
          | some verStr =>
              match parseVersionTuple verStr with
              | .ok t => .ok (verStr, t)
              | .error e => .error e
          | none => .error (.runtimeError "Could not determine library version")

/-- `MediaInfo._get_library` over an explicit candidate list. -/
def getLibrary (load : String → Except String String) (candidates : List String) :
    Except PyErr (String × List Int) :=
  getLibraryAux load candidates candidates []

/-! ## `MediaInfo.parse` (the streaming acquisition engine)

The native library is external: its return values are supplied by a
`LibOracle`. A `parse` run is modelled as the ordered trace of native
calls and source operations it performs, together with its outcome. -/

/-- One observable step of a `parse` run: native-library calls (with
the values the oracle returned) and operations on the source. -/
inductive Event where
  | optionCall : String → String → Event
  | openPath : String → Event
  | bufferInit : Nat → Nat → Event
  | bufferContinue : Nat → Nat → Event
  | gotoGetCall : Nat → Event
  | bufferFinalize : Event
  | informCall : Event
  | closeCall : Event
  | deleteCall : Event
  | srcSeek : Nat → Event
  | srcRead : Nat → Event
deriving Repr, DecidableEq

/-- Return values of the native library for one `parse` run. -/
structure LibOracle where
  openResult : Bool
  contStatus : Nat → Nat
  gotoGet : Nat → Nat
  informText : String

/-- The source passed to `parse`: a path/URL string, or a file-like
object with an optional `mode` attribute and a byte length. -/
inductive Source where
  | path : String → Source
  | stream : Option String → Nat → Source

/-- The keyword arguments of `parse` that drive the modelled control
flow (`parse_speed` is passed through as `str(parse_speed)`, modelled
by its already-formatted string). -/
structure ParseArgs where
  coverData : Bool
  output : Option String
  full : Bool
  parseSpeedStr : String
  legacyStreamDisplay : Bool
  mediainfoOptions : Option (List (String × String))
  bufferSize : Nat

/-- `ctypes.c_uint64(-1).value`, the "no seek requested" sentinel. -/
def u64sentinel : Nat := 2 ^ 64 - 1

/-- `"OLDXML" if lib_version >= (17, 10) else "XML"`. -/
def xmlOptionOf (ver : List Int) : String :=
  if verGe ver [17, 10] then "OLDXML" else "XML"

/-- `"b" not in getattr(filename, "mode", "b")` negated: a missing
`mode` defaults to `"b"` and counts as binary. -/
def modeIsBinary : Option String → Bool
  | none => true
  | some m => m.data.any (fun c => c == 'b')

/-- Substring test on character lists. -/
def listContainsSub (sub : List Char) : List Char → Bool
  | [] => sub.isEmpty
  | c :: rest => sub.isPrefixOf (c :: rest) || listContainsSub sub rest

/-- `"://" in filename`. -/
def urlLike (s : String) : Bool := listContainsSub ("://".data) s.data

/-- The fixed option-configuration sequence of `parse` (lines 458-481):
version-gated `Cover_Data`, `CharSet`, `Inform` (custom output wins
over the version-selected XML keyword), `Complete`, `ParseSpeed`,
`LegacyStreamDisplay`, then any caller-supplied options in order. -/
def configureEvents (ver : List Int) (a : ParseArgs) : List Event :=
  (if verGe ver [18, 3] then
    [Event.optionCall "Cover_Data" (if a.coverData then "base64" else "")]
   else []) ++
  [Event.optionCall "CharSet" "UTF-8",
   Event.optionCall "Inform" (match a.output with
     | some o => o
     | none => xmlOptionOf ver),
   Event.optionCall "Complete" (if a.full then "1" else ""),
   Event.optionCall "ParseSpeed" a.parseSpeedStr,
   Event.optionCall "LegacyStreamDisplay" (if a.legacyStreamDisplay then "1" else "")] ++
  (match a.mediainfoOptions with
   | some opts => opts.map (fun p => Event.optionCall p.1 p.2)
   | none => [])

/-- How the feed loop exited: the `0x08` finish bit, or an empty read. -/
inductive LoopExit where
  | finishBit : LoopExit
  | emptyChunk : LoopExit
deriving Repr, DecidableEq

/-- The `while True` buffer feed loop of `parse` (lines 499-514),
fuelled because an adversarial oracle can seek backwards forever.
Arguments after the fuel: current source position, index of the next
`Open_Buffer_Continue` call, index of the next `GoTo_Get` call.
A read returns `min bufsize (size - pos)` bytes. -/
def feedLoop (L : LibOracle) (size bufsize : Nat) :
    Nat → Nat → Nat → Nat → Option (List Event × LoopExit)
  | 0, _, _, _ => none
  | fuel + 1, pos, ci, gi =>
      let chunk := min bufsize (size - pos)
      if chunk ≠ 0 then
        let status := L.contStatus ci
        if status &&& 0x08 ≠ 0 then
          some ([Event.srcRead chunk, Event.bufferContinue chunk status], .finishBit)
        else
          let sk := L.gotoGet gi
          if sk ≠ u64sentinel then
            match feedLoop L size bufsize fuel sk (ci + 1) (gi + 1) with
            | some (evs, ex) =>
                some (Event.srcRead chunk :: Event.bufferContinue chunk status ::
                  Event.gotoGetCall sk :: Event.srcSeek sk ::
                  Event.bufferInit size sk :: evs, ex)
            | none => none
          else
            match feedLoop L size bufsize fuel (pos + chunk) (ci + 1) (gi + 1) with
            | some (evs, ex) =>
                some (Event.srcRead chunk :: Event.bufferContinue chunk status ::
                  Event.gotoGetCall sk :: evs, ex)
            | none => none
      else
        some ([Event.srcRead 0], .emptyChunk)

/-- The reporting and closing tail of `parse` (lines 531-541): inform,
the version-gated `Reset`, then always close followed by delete. -/
def informCloseEvents (ver : List Int) (a : ParseArgs) : List Event :=
  [Event.informCall] ++
  (if a.mediainfoOptions.isSome && verGe ver [19, 9] then
    [Event.optionCall "Reset" ""]
   else []) ++
  [Event.closeCall, Event.deleteCall]

instance {ε α : Type} [DecidableEq ε] [DecidableEq α] : DecidableEq (Except ε α) := fun a b =>
  match a, b with
  | .ok x, .ok y =>
      if h : x = y then .isTrue (by rw [h]) else .isFalse (by simp [h])
  | .error x, .error y =>
      if h : x = y then .isTrue (by rw [h]) else .isFalse (by simp [h])
  | .ok _, .error _ => .isFalse (by simp)
  | .error _, .ok _ => .isFalse (by simp)

/-- Outcome and observable trace of one `parse` run. -/
structure ParseResult where
  events : List Event
  outcome : Except PyErr String
deriving Repr, DecidableEq

/-- `MediaInfo.parse` after `_get_library` succeeded, for a given
library version, oracle and filesystem predicate. Returns `none` only
when the fuel is too small for the feed loop. The size-probing
`seek(0, 2)/tell()/seek(0)` on stream sources is left implicit in
`Source.stream`'s size field. -/
def parseModel (L : LibOracle) (ver : List Int) (a : ParseArgs) (src : Source)
    (fsExists : String → Bool) (fuel : Nat) : Option ParseResult :=
  let cfg := configureEvents ver a
  match src with
  | .stream mode size =>
      if !modeIsBinary mode then
        some { events := cfg,
               outcome := .error (.valueError "File should be opened in binary mode") }
      else
        match feedLoop L size a.bufferSize fuel 0 0 0 with
        | none => none
        | some (evs, _) =>
            some { events := cfg ++ [Event.bufferInit size 0] ++ evs ++
                     [Event.bufferFinalize] ++ informCloseEvents ver a,
                   outcome := .ok L.informText }
  | .path name =>
      if L.openResult then
        some { events := cfg ++ [Event.openPath name] ++ informCloseEvents ver a,
               outcome := .ok L.informText }
      else
        some { events := cfg ++ [Event.openPath name, Event.closeCall, Event.deleteCall],
               outcome := .error
                 (if !urlLike name && !fsExists name then
                   .fileNotFound name
                  else
                   .runtimeError ("An error occurred while opening " ++ name ++
                     " with libmediainfo")) }

/-! ## Shared concrete fixtures -/

/-- An oracle whose native calls always succeed with status `0` and
never request a seek. -/
def oracleZero : LibOracle := ⟨true, fun _ => 0, fun _ => u64sentinel, "report"⟩

/-- An oracle whose open-by-path call reports failure. -/
def oracleOpenFail : LibOracle := ⟨false, fun _ => 0, fun _ => u64sentinel, "report"⟩

/-- Default-like keyword arguments for `parse`. -/
def argsPlain : ParseArgs := ⟨false, none, true, "0.5", false, none, 2⟩

/-! ## Theorems -/

/-- C7: for every attribute record and every attribute name that was
never set on it, reading that attribute returns the neutral absent
value `None` — the accessor is total, so it never raises — and this
absent value is distinguishable from a present-but-empty string. -/
theorem absent_attribute_reads_none (t : Track) (n : String)
    (h : getAttrRaw t.dict n = none) :
    Track.getattr t n = PyVal.vNone ∧ PyVal.vNone ≠ PyVal.vStr "" := by
  refine ⟨?_, by intro hc; cases hc⟩
  simp [Track.getattr, PyMediaInfo.getattr, h]

theorem absent_attribute_reads_none_witness :
    getAttrRaw [("track_type", PyVal.vStr "General")] "duration" = none ∧
    (Track.getattr ⟨[("track_type", PyVal.vStr "General")]⟩ "duration" = PyVal.vNone ∧
      PyVal.vNone ≠ PyVal.vStr "") :=
  ⟨by decide,
   absent_attribute_reads_none ⟨[("track_type", PyVal.vStr "General")]⟩ "duration" (by decide)⟩

/-- C10: a file-like source with no `mode` attribute at all is treated
as binary and proceeds with the buffer-streaming protocol; the
mode error is raised exactly when the `mode` attribute exists and does
not contain the binary marker `'b'`. -/
theorem missing_mode_treated_as_binary (L : LibOracle) (ver : List Int) (a : ParseArgs)
    (mode : Option String) (size : Nat) (fs : String → Bool) (fuel : Nat)
    (res : ParseResult)
    (h : parseModel L ver a (.stream mode size) fs fuel = some res) :
    (res.outcome = .error (.valueError "File should be opened in binary mode") ↔
      ∃ m, mode = some m ∧ m.data.any (fun c => c == 'b') = false) ∧
    (mode = none → ∃ rest, res.events =
      configureEvents ver a ++ [Event.bufferInit size 0] ++ rest) := by
  simp only [parseModel] at h
  by_cases hb : modeIsBinary mode
  · rw [hb] at h
    simp only [Bool.not_true, Bool.false_eq_true, if_false] at h
    cases hfl : feedLoop L size a.bufferSize fuel 0 0 0 with
    | none => rw [hfl] at h; cases h
    | some pr =>
        rw [hfl] at h
        cases h
        constructor
        · constructor
          · intro hc; cases hc
          · rintro ⟨m, rfl, hm⟩
            simp [modeIsBinary, hm] at hb
        · intro _
          exact ⟨pr.1 ++ [Event.bufferFinalize] ++ informCloseEvents ver a,
            by simp [List.append_assoc]⟩
  · rw [Bool.not_eq_true] at hb
    rw [hb] at h
    simp only [Bool.not_false, if_true] at h
    cases h
    constructor
    · constructor
      · intro _
        cases mode with
        | none => simp [modeIsBinary] at hb
        | some m => exact ⟨m, rfl, by simpa [modeIsBinary] using hb⟩
      · intro _; rfl
    · intro hm; rw [hm] at hb; simp [modeIsBinary] at hb

theorem missing_mode_treated_as_binary_witness :
    parseModel oracleZero [17, 9] argsPlain (.stream none 0) (fun _ => false) 1 =
      some ⟨configureEvents [17, 9] argsPlain ++ [Event.bufferInit 0 0] ++
              [Event.srcRead 0] ++ [Event.bufferFinalize] ++
              informCloseEvents [17, 9] argsPlain, .ok "report"⟩ ∧
    ((⟨configureEvents [17, 9] argsPlain ++ [Event.bufferInit 0 0] ++
        [Event.srcRead 0] ++ [Event.bufferFinalize] ++
        informCloseEvents [17, 9] argsPlain, .ok "report"⟩ : ParseResult).outcome =
          .error (.valueError "File should be opened in binary mode") ↔
      ∃ m, (none : Option String) = some m ∧ m.data.any (fun c => c == 'b') = false) ∧
    ((none : Option String) = none →
      ∃ rest, (⟨configureEvents [17, 9] argsPlain ++ [Event.bufferInit 0 0] ++
        [Event.srcRead 0] ++ [Event.bufferFinalize] ++
        informCloseEvents [17, 9] argsPlain, .ok "report"⟩ : ParseResult).events =
          configureEvents [17, 9] argsPlain ++ [Event.bufferInit 0 0] ++ rest) :=
  ⟨by rfl,
   missing_mode_treated_as_binary oracleZero [17, 9] argsPlain none 0 (fun _ => false) 1 _
     (by rfl)⟩

/-- C9: when open-by-path reports failure the handle is immediately
closed then destroyed, and the error is Not-Found exactly when the
source string has no scheme separator and does not exist on the local
filesystem, a generic open failure otherwise; in particular a URL-like
source yields the open failure, never Not-Found. -/
theorem open_failure_teardown_and_error_kind (L : LibOracle) (ver : List Int)
    (a : ParseArgs) (name : String) (fs : String → Bool) (fuel : Nat)
    (h : L.openResult = false) :
    parseModel L ver a (.path name) fs fuel =
      some ⟨configureEvents ver a ++
              [Event.openPath name, Event.closeCall, Event.deleteCall],
            .error (if !urlLike name && !fs name then .fileNotFound name
                    else .runtimeError ("An error occurred while opening " ++ name ++
                      " with libmediainfo"))⟩ ∧
    (urlLike name = true →
      parseModel L ver a (.path name) fs fuel =
        some ⟨configureEvents ver a ++
                [Event.openPath name, Event.closeCall, Event.deleteCall],
              .error (.runtimeError ("An error occurred while opening " ++ name ++
                " with libmediainfo"))⟩) := by
  constructor
  · simp [parseModel, h]
  · intro hu
    simp [parseModel, h, hu]

theorem open_failure_teardown_and_error_kind_witness :
    parseModel oracleOpenFail [18, 3] argsPlain (.path "https://x") (fun _ => false) 1 =
      some ⟨configureEvents [18, 3] argsPlain ++
              [Event.openPath "https://x", Event.closeCall, Event.deleteCall],
            .error (.runtimeError
              "An error occurred while opening https://x with libmediainfo")⟩ :=
  (open_failure_teardown_and_error_kind oracleOpenFail [18, 3] argsPlain "https://x"
    (fun _ => false) 1 (by rfl)).2 (by decide)

/-- C8: the inform option uses the legacy `XML` keyword below version
17.10 and `OLDXML` at or after it unless a caller-supplied output
format overrides it, and below version 18.03 no `Cover_Data` option
call is made at all, even when cover data was requested; every `parse`
run starts with exactly this configuration sequence. -/
theorem version_gated_configuration (ver : List Int) (a : ParseArgs)
    (hopts : ∀ opts, a.mediainfoOptions = some opts → ∀ v, ("Cover_Data", v) ∉ opts) :
    (a.output = none →
      Event.optionCall "Inform" (if verGe ver [17, 10] then "OLDXML" else "XML") ∈
        configureEvents ver a) ∧
    (∀ o, a.output = some o → Event.optionCall "Inform" o ∈ configureEvents ver a) ∧
    (verGe ver [18, 3] = false →
      ∀ v, Event.optionCall "Cover_Data" v ∉ configureEvents ver a) ∧
    (∀ (L : LibOracle) (src : Source) (fs : String → Bool) (fuel : Nat)
        (res : ParseResult),
      parseModel L ver a src fs fuel = some res →
      ∃ rest, res.events = configureEvents ver a ++ rest) := by
  refine ⟨?_, ?_, ?_, ?_⟩
  · intro ho
    simp [configureEvents, ho, xmlOptionOf]
  · intro o ho
    simp [configureEvents, ho]
  · intro hv v
    simp only [configureEvents, hv, if_false, List.nil_append, List.mem_append,
      List.mem_cons, List.not_mem_nil]
    rintro (hmem | hmem)
    · simp only [List.mem_cons, List.not_mem_nil, or_false] at hmem
      rcases hmem with h | h | h | h | h <;> simp at h
    · cases hmo : a.mediainfoOptions with
      | none => rw [hmo] at hmem; simp at hmem
      | some opts =>
          rw [hmo] at hmem
          simp only [List.mem_map] at hmem
          obtain ⟨p, hp, hpe⟩ := hmem
          injection hpe with h1 h2
          have hpv : p = ("Cover_Data", v) := Prod.ext h1 h2
          rw [hpv] at hp
          exact hopts opts hmo v hp
  · intro L src fs fuel res h
    cases src with
    | stream mode size =>
        simp only [parseModel] at h
        by_cases hb : modeIsBinary mode
        · rw [hb] at h
          simp only [Bool.not_true, Bool.false_eq_true, if_false] at h
          cases hfl : feedLoop L size a.bufferSize fuel 0 0 0 with
          | none => rw [hfl] at h; cases h
          | some pr =>
              rw [hfl] at h; cases h
              exact ⟨[Event.bufferInit size 0] ++ pr.1 ++ [Event.bufferFinalize] ++
                informCloseEvents ver a, by simp⟩
        · rw [Bool.not_eq_true] at hb
          rw [hb] at h
          simp only [Bool.not_false, if_true] at h
          cases h
          exact ⟨[], by simp⟩
    | path name =>
        simp only [parseModel] at h
        cases ho : L.openResult with
        | true =>
            rw [ho] at h; simp only [if_true] at h; cases h
            exact ⟨[Event.openPath name] ++ informCloseEvents ver a, by simp⟩
        | false =>
            rw [ho] at h; simp only [Bool.false_eq_true, if_false] at h; cases h
            exact ⟨[Event.openPath name, Event.closeCall, Event.deleteCall], by simp⟩

theorem version_gated_configuration_witness :
    Event.optionCall "Inform" "XML" ∈ configureEvents [17, 9] argsPlain ∧
    (∀ v, Event.optionCall "Cover_Data" v ∉ configureEvents [17, 9] argsPlain) := by
  have h := version_gated_configuration [17, 9] argsPlain
    (by intro opts hmo; simp [argsPlain] at hmo)
  refine ⟨?_, h.2.2.1 (by decide)⟩
  have h1 := h.1 (by rfl)
  have hv : verGe [(17 : Int), 9] [17, 10] = false := by decide
  rw [hv] at h1
  simpa using h1

/-- For an `Except`-valued `mapM` that succeeds, the output list has
the same length as the input and is its elementwise image, in order. -/
theorem mapM_ok_spec {α β : Type} (f : α → Except PyErr β) :
    ∀ (l : List α) (r : List β), l.mapM f = Except.ok r →
      r.length = l.length ∧
      ∀ i (h1 : i < l.length) (h2 : i < r.length),
        f (l.get ⟨i, h1⟩) = Except.ok (r.get ⟨i, h2⟩) := by
  intro l
  induction l with
  | nil =>
      intro r h
      rw [← List.mapM'_eq_mapM] at h
      simp only [List.mapM', pure, Except.pure] at h
      cases h
      exact ⟨rfl, fun i h1 _ => absurd h1 (Nat.not_lt_zero i)⟩
  | cons a l ih =>
      intro r h
      rw [← List.mapM'_eq_mapM] at h
      simp only [List.mapM', bind, Except.bind] at h
      cases hfa : f a with
      | error e => rw [hfa] at h; cases h
      | ok b =>
          rw [hfa] at h
          cases hml : List.mapM' f l with
          | error e => rw [hml] at h; cases h
          | ok bs =>
              rw [hml] at h
              simp only [pure, Except.pure] at h
              cases h
              have ihs := ih bs (by rw [← List.mapM'_eq_mapM]; exact hml)
              refine ⟨by simp [ihs.1], ?_⟩
              intro i h1 h2
              cases i with
              | zero => simpa using hfa
              | succ j =>
                  have hj1 : j < l.length := by simpa using h1
                  have hj2 : j < bs.length := by simpa using h2
                  simpa using ihs.2 j hj1 hj2

/-- C6: for every document for which the output model builder
succeeds, the result contains exactly one record per selected track
element — both accepted layouts are handled by `selectTrackElems`,
which inspects the root tag — in document order. -/
theorem tracks_in_document_order (root : XElem) (tracks : List Track)
    (h : MediaInfo.ofRoot root = .ok tracks) :
    tracks.length = (selectTrackElems root).length ∧
    ∀ i (h1 : i < (selectTrackElems root).length) (h2 : i < tracks.length),
      Track.ofElem ((selectTrackElems root).get ⟨i, h1⟩) = .ok (tracks.get ⟨i, h2⟩) := by
  have hm := mapM_ok_spec Track.ofElem (selectTrackElems root) tracks h
  exact ⟨hm.1, fun i h1 h2 => hm.2 i h1 h2⟩

/-- A three-track document in the wrapped (newer-schema) layout. -/
def exRoot : XElem :=
  ⟨"Mediainfo", [], none,
    [⟨"File", [], none,
      [⟨"track", [("type", "General")], none, [⟨"Duration", [], some "5", []⟩]⟩,
       ⟨"track", [("type", "Video")], none, []⟩]⟩,
     ⟨"File", [], none, [⟨"track", [("type", "Audio")], none, []⟩]⟩]⟩

/-- The records built from `exRoot`, in document order. -/
def exTracks : List Track :=
  [⟨[("track_type", PyVal.vStr "General"), ("duration", PyVal.vStr "5")]⟩,
   ⟨[("track_type", PyVal.vStr "Video")]⟩,
   ⟨[("track_type", PyVal.vStr "Audio")]⟩]

theorem tracks_in_document_order_witness :
    MediaInfo.ofRoot exRoot = .ok exTracks ∧
    exTracks.length = (selectTrackElems exRoot).length :=
  ⟨by decide, (tracks_in_document_order exRoot exTracks (by decide)).1⟩

/-- C2 counterexample: a parse invocation over a text-mode stream exits
(raising the mode error) after the handle was created and options were
configured, yet its trace contains no close and no delete call — the
handle is not released on this exit path. -/
theorem handle_leak_counterexample :
    parseModel oracleZero [18, 3] argsPlain (.stream (some "rt") 4) (fun _ => false) 5 =
      some ⟨configureEvents [18, 3] argsPlain,
            .error (.valueError "File should be opened in binary mode")⟩ ∧
    Event.closeCall ∉ configureEvents [18, 3] argsPlain ∧
    Event.deleteCall ∉ configureEvents [18, 3] argsPlain :=
  ⟨by rfl, by decide, by decide⟩

/-- C2 amended: the handle is closed then destroyed on every exit path
that does not raise — the normal completion of both acquisition modes —
and on the open-by-path failure path before its error is raised;
exception paths such as the mode-check failure do not release it. -/
theorem handle_released_on_non_raising_paths (L : LibOracle) (ver : List Int)
    (a : ParseArgs) (src : Source) (fs : String → Bool) (fuel : Nat) (res : ParseResult)
    (h : parseModel L ver a src fs fuel = some res)
    (hok : res.outcome.isOk = true ∨ ∃ name, src = Source.path name) :
    ∃ pre, res.events = pre ++ [Event.closeCall, Event.deleteCall] := by
  have hic : ∃ q, informCloseEvents ver a =
      q ++ [Event.closeCall, Event.deleteCall] := by
    refine ⟨[Event.informCall] ++
      (if a.mediainfoOptions.isSome && verGe ver [19, 9] then
        [Event.optionCall "Reset" ""] else []), ?_⟩
    simp [informCloseEvents]
  obtain ⟨q, hq⟩ := hic
  cases src with
  | path name =>
      simp only [parseModel] at h
      cases ho : L.openResult with
      | true =>
          rw [ho] at h; simp only [if_true] at h; cases h
          exact ⟨configureEvents ver a ++ [Event.openPath name] ++ q,
            by simp [hq, List.append_assoc]⟩
      | false =>
          rw [ho] at h; simp only [Bool.false_eq_true, if_false] at h; cases h
          exact ⟨configureEvents ver a ++ [Event.openPath name], by simp⟩
  | stream mode size =>
      simp only [parseModel] at h
      by_cases hb : modeIsBinary mode
      · rw [hb] at h
        simp only [Bool.not_true, Bool.false_eq_true, if_false] at h
        cases hfl : feedLoop L size a.bufferSize fuel 0 0 0 with
        | none => rw [hfl] at h; cases h
        | some pr =>
            rw [hfl] at h; cases h
            exact ⟨configureEvents ver a ++ [Event.bufferInit size 0] ++ pr.1 ++
              [Event.bufferFinalize] ++ q, by simp [hq, List.append_assoc]⟩
      · rw [Bool.not_eq_true] at hb
        rw [hb] at h
        simp only [Bool.not_false, if_true] at h
        cases h
        rcases hok with hok | ⟨name, hn⟩
        · cases hok
        · cases hn

theorem handle_released_on_non_raising_paths_witness :
    ∃ pre,
      (⟨configureEvents [17, 9] argsPlain ++
          [Event.openPath "nofile", Event.closeCall, Event.deleteCall],
        .error (.fileNotFound "nofile")⟩ : ParseResult).events =
        pre ++ [Event.closeCall, Event.deleteCall] :=
  handle_released_on_non_raising_paths oracleOpenFail [17, 9] argsPlain
    (.path "nofile") (fun _ => false) 3 _ (by rfl) (Or.inr ⟨"nofile", rfl⟩)

/-- C4 counterexample: a text-mode stream does fail with the mode
error, but only after several native option calls were already made,
and the handle is left unreleased — so "before any native library call"
and "no native resource is leaked" both fail on the code. -/
theorem mode_error_after_native_calls_counterexample :
    parseModel oracleZero [17, 9] argsPlain (.stream (some "r") 3) (fun _ => true) 4 =
      some ⟨configureEvents [17, 9] argsPlain,
            .error (.valueError "File should be opened in binary mode")⟩ ∧
    Event.optionCall "CharSet" "UTF-8" ∈ configureEvents [17, 9] argsPlain ∧
    Event.closeCall ∉ configureEvents [17, 9] argsPlain :=
  ⟨by rfl, by decide, by decide⟩

/-- C4 amended: a non-binary stream fails with the mode error before
any native call that opens or feeds the source — every native call made
up to that point is an option-configuration call — but after those
option calls, and the handle created for the invocation is not
released by this failure. -/
theorem mode_error_before_source_calls (L : LibOracle) (ver : List Int) (a : ParseArgs)
    (mode : Option String) (size : Nat) (fs : String → Bool) (fuel : Nat)
    (h : modeIsBinary mode = false) :
    parseModel L ver a (.stream mode size) fs fuel =
      some ⟨configureEvents ver a,
            .error (.valueError "File should be opened in binary mode")⟩ ∧
    (∀ e ∈ configureEvents ver a, ∃ k v, e = Event.optionCall k v) ∧
    Event.closeCall ∉ configureEvents ver a ∧
    Event.deleteCall ∉ configureEvents ver a := by
  have hall : ∀ e ∈ configureEvents ver a, ∃ k v, e = Event.optionCall k v := by
    intro e he
    simp only [configureEvents, List.mem_append] at he
    rcases he with (he | he) | he
    · by_cases hv : verGe ver [18, 3]
      · rw [hv] at he; simp only [if_true, List.mem_singleton] at he
        exact ⟨_, _, he⟩
      · rw [Bool.not_eq_true] at hv; rw [hv] at he; simp at he
    · simp only [List.mem_cons, List.not_mem_nil, or_false] at he
      rcases he with h | h | h | h | h <;> exact ⟨_, _, h⟩
    · cases hmo : a.mediainfoOptions with
      | none => rw [hmo] at he; simp at he
      | some opts =>
          rw [hmo] at he
          simp only [List.mem_map] at he
          obtain ⟨p, _, hpe⟩ := he
          exact ⟨_, _, hpe.symm⟩
  refine ⟨?_, hall, ?_, ?_⟩
  · simp [parseModel, h]
  · intro hc
    obtain ⟨k, v, hkv⟩ := hall _ hc
    cases hkv
  · intro hc
    obtain ⟨k, v, hkv⟩ := hall _ hc
    cases hkv

theorem mode_error_before_source_calls_witness :
    parseModel oracleZero [18, 3] argsPlain (.stream (some "w") 7) (fun _ => false) 2 =
      some ⟨configureEvents [18, 3] argsPlain,
            .error (.valueError "File should be opened in binary mode")⟩ ∧
    (∀ e ∈ configureEvents [18, 3] argsPlain, ∃ k v, e = Event.optionCall k v) ∧
    Event.closeCall ∉ configureEvents [18, 3] argsPlain ∧
    Event.deleteCall ∉ configureEvents [18, 3] argsPlain :=
  mode_error_before_source_calls oracleZero [18, 3] argsPlain (some "w") 7
    (fun _ => false) 2 (by decide)

/-- C3 counterexample: with two candidates where the first loads but
reports an unparseable version string and the second would succeed, the
loop raises the runtime error at the first candidate: the second is
never reached — running the loop on the second candidate alone
succeeds — and no aggregated load error is produced. -/
theorem version_parse_failure_aborts_counterexample :
    getLibrary (fun p => if p == "a" then .ok "garbage"
      else .ok "MediaInfoLib - v1.0") ["a", "b"] =
        .error (.runtimeError "Could not determine library version") ∧
    getLibrary (fun p => if p == "a" then .ok "garbage"
      else .ok "MediaInfoLib - v1.0") ["b"] = .ok ("1.0", [1, 0]) :=
  ⟨by rfl, by rfl⟩

/-- The aggregation behavior of the candidate loop when every remaining
candidate fails to load with an OS error. -/
theorem getLibraryAux_all_load_failures (load : String → Except String String)
    (allPaths : List String) (msg : String → String) :
    ∀ (remaining excs : List String),
      (∀ p ∈ remaining, load p = .error (msg p)) →
      getLibraryAux load allPaths remaining excs = .error (.osError
        ("Failed to load library from " ++ String.intercalate ", " allPaths ++
         " - " ++ String.intercalate ", " (excs ++ remaining.map msg))) := by
  intro remaining
  induction remaining with
  | nil => intro excs _; simp [getLibraryAux]
  | cons p rest ih =>
      intro excs hfail
      have hp : load p = .error (msg p) := hfail p (List.mem_cons_self p rest)
      simp only [getLibraryAux, hp]
      rw [ih (excs ++ [msg p]) (fun q hq => hfail q (List.mem_cons_of_mem p hq))]
      simp [List.append_assoc]

/-- C3 amended: a candidate that fails to load with an OS error is
collected and the next candidate tried, and when every candidate fails
to load the operation fails with a single load error aggregating all
attempted paths and every per-candidate message; but a candidate that
loads and yields a version string not matching the fixed format raises
a runtime error immediately, without trying further candidates and
without the aggregated error. -/
theorem library_load_error_behavior :
    (∀ (load : String → Except String String) (paths : List String)
        (msg : String → String),
      (∀ p ∈ paths, load p = .error (msg p)) →
      getLibrary load paths = .error (.osError
        ("Failed to load library from " ++ String.intercalate ", " paths ++
         " - " ++ String.intercalate ", " (paths.map msg)))) ∧
    (∀ (load : String → Except String String) (allPaths rest excs : List String)
        (p v : String),
      load p = .ok v → matchVersion v = none →
      getLibraryAux load allPaths (p :: rest) excs =
        .error (.runtimeError "Could not determine library version")) := by
  constructor
  · intro load paths msg hfail
    have := getLibraryAux_all_load_failures load paths msg paths [] hfail
    simpa [getLibrary] using this
  · intro load allPaths rest excs p v hld hmv
    simp [getLibraryAux, hld, hmv]

theorem library_load_error_behavior_witness :
    getLibrary (fun p => .error ("no " ++ p)) ["x", "y"] =
      .error (.osError "Failed to load library from x, y - no x, no y") := by
  have h := library_load_error_behavior.1 (fun p => .error ("no " ++ p)) ["x", "y"]
    (fun p => "no " ++ p) (by intro p _; rfl)
  simpa using h

/-- The protocol shape of every terminating feed-loop trace: the loop
ends only at an empty read or at a continue whose status has bit `0x08`
set; every non-finished non-empty chunk is followed by a seek query,
and a non-sentinel answer is followed by a source seek and a re-issued
buffer-init carrying (total size, new offset) before the next read. -/
inductive GoodTrace (size : Nat) : List Event → LoopExit → Prop where
  | empty : GoodTrace size [Event.srcRead 0] LoopExit.emptyChunk
  | finish (c s : Nat) : c ≠ 0 → s &&& 8 ≠ 0 →
      GoodTrace size [Event.srcRead c, Event.bufferContinue c s] LoopExit.finishBit
  | stepNoSeek (c s : Nat) (rest : List Event) (ex : LoopExit) :
      c ≠ 0 → s &&& 8 = 0 → GoodTrace size rest ex →
      GoodTrace size (Event.srcRead c :: Event.bufferContinue c s ::
        Event.gotoGetCall u64sentinel :: rest) ex
  | stepSeek (c s sk : Nat) (rest : List Event) (ex : LoopExit) :
      c ≠ 0 → s &&& 8 = 0 → sk ≠ u64sentinel → GoodTrace size rest ex →
      GoodTrace size (Event.srcRead c :: Event.bufferContinue c s ::
        Event.gotoGetCall sk :: Event.srcSeek sk ::
        Event.bufferInit size sk :: rest) ex

/-- Every terminating run of the feed loop produces a protocol-shaped
trace. -/
theorem feedLoop_goodTrace (L : LibOracle) (size bufsize : Nat) :
    ∀ (fuel pos ci gi : Nat) (evs : List Event) (ex : LoopExit),
      feedLoop L size bufsize fuel pos ci gi = some (evs, ex) →
      GoodTrace size evs ex := by
  intro fuel
  induction fuel with
  | zero => intro pos ci gi evs ex h; simp [feedLoop] at h
  | succ fuel ih =>
      intro pos ci gi evs ex h
      simp only [feedLoop] at h
      split at h
      · split at h
        · cases h
          exact GoodTrace.finish _ _ (by assumption) (by assumption)
        · split at h
          · split at h
            · cases h
              refine GoodTrace.stepSeek _ _ _ _ _ (by assumption) ?_ (by assumption)
                (ih _ _ _ _ _ (by assumption))
              · simp only [ne_eq, Decidable.not_not] at *
                assumption
            · cases h
          · split at h
            · cases h
              have hsk : ¬ L.gotoGet gi ≠ u64sentinel := by assumption
              rw [ne_eq, Decidable.not_not] at hsk
              rw [hsk]
              refine GoodTrace.stepNoSeek _ _ _ _ (by assumption) ?_
                (ih _ _ _ _ _ (by assumption))
              simp only [ne_eq, Decidable.not_not] at *
              assumption
            · cases h
      · cases h
        exact GoodTrace.empty

/-- With positive chunk size, statuses never carrying the finish bit
and no seek requests, the feed loop terminates by reading an empty
chunk once the source is exhausted. -/
theorem feedLoop_exhausts (L : LibOracle) (size bufsize : Nat)
    (hb : 0 < bufsize) (hs : ∀ i, L.contStatus i &&& 8 = 0)
    (hg : ∀ i, L.gotoGet i = u64sentinel) :
    ∀ (fuel pos ci gi : Nat), size - pos < fuel →
      ∃ evs, feedLoop L size bufsize fuel pos ci gi =
        some (evs, LoopExit.emptyChunk) := by
  intro fuel
  induction fuel with
  | zero => intro pos ci gi h; omega
  | succ fuel ih =>
      intro pos ci gi hlt
      by_cases hpos : size - pos = 0
      · exact ⟨[Event.srcRead 0], by simp [feedLoop, hpos]⟩
      · have hchunk : min bufsize (size - pos) ≠ 0 := by omega
        obtain ⟨evs, hevs⟩ :=
          ih (pos + min bufsize (size - pos)) (ci + 1) (gi + 1) (by omega)
        refine ⟨Event.srcRead (min bufsize (size - pos)) ::
          Event.bufferContinue (min bufsize (size - pos)) (L.contStatus ci) ::
          Event.gotoGetCall (L.gotoGet gi) :: evs, ?_⟩
        simp [feedLoop, hchunk, hs ci, hg gi, hevs]

/-- C5: every terminating feed-loop trace has the protocol shape — the
loop stops only on the `0x08` finish bit or an empty read, queries the
seek position after each non-finished non-empty chunk, and on a
non-sentinel answer seeks the source and re-issues buffer-init with
(total size, new offset) before the next continue — and a source whose
statuses never carry the finish bit and whose length matches the bytes
available exits via the empty-chunk branch, after which
buffer-finalize is called. -/
theorem feed_loop_protocol (L : LibOracle) (a : ParseArgs) (ver : List Int)
    (size : Nat) (fs : String → Bool) :
    (∀ (fuel pos ci gi : Nat) (evs : List Event) (ex : LoopExit),
      feedLoop L size a.bufferSize fuel pos ci gi = some (evs, ex) →
      GoodTrace size evs ex) ∧
    (0 < a.bufferSize → (∀ i, L.contStatus i &&& 8 = 0) →
      (∀ i, L.gotoGet i = u64sentinel) →
      ∃ evs, feedLoop L size a.bufferSize (size + 1) 0 0 0 =
          some (evs, LoopExit.emptyChunk) ∧
        GoodTrace size evs LoopExit.emptyChunk ∧
        parseModel L ver a (.stream none size) fs (size + 1) =
          some ⟨configureEvents ver a ++ [Event.bufferInit size 0] ++ evs ++
                  [Event.bufferFinalize] ++ informCloseEvents ver a,
                .ok L.informText⟩) := by
  refine ⟨feedLoop_goodTrace L size a.bufferSize, ?_⟩
  intro hb hs hg
  obtain ⟨evs, hevs⟩ :=
    feedLoop_exhausts L size a.bufferSize hb hs hg (size + 1) 0 0 0 (by omega)
  refine ⟨evs, hevs,
    feedLoop_goodTrace L size a.bufferSize (size + 1) 0 0 0 evs LoopExit.emptyChunk hevs,
    ?_⟩
  simp [parseModel, modeIsBinary, hevs]

theorem feed_loop_protocol_witness :
    ∃ evs, feedLoop oracleZero 3 argsPlain.bufferSize 4 0 0 0 =
        some (evs, LoopExit.emptyChunk) ∧
      GoodTrace 3 evs LoopExit.emptyChunk ∧
      parseModel oracleZero [17, 9] argsPlain (.stream none 3) (fun _ => false) 4 =
        some ⟨configureEvents [17, 9] argsPlain ++ [Event.bufferInit 3 0] ++ evs ++
                [Event.bufferFinalize] ++ informCloseEvents [17, 9] argsPlain,
              .ok "report"⟩ :=
  (feed_loop_protocol oracleZero argsPlain [17, 9] 3 (fun _ => false)).2
    (by decide) (fun _ => by simp [oracleZero]) (fun _ => by simp [oracleZero])

/-! ## The repeated-attribute disambiguation (claim C1) -/

/-- The integer of the first int-coercible string in a list, if any. -/
def firstIntIn : List String → Option Int
  | [] => none
  | v :: vs =>
      match pyIntOfString v with
      | some n => some n
      | none => firstIntIn vs

/-- The final (scalar, `other_` list) pair the construction produces
for one attribute name with raw occurrences `v1 :: rest`: the scalar is
the integer of the first coercible value scanning the original scalar
and then the others; a promotion from the `other_` list leaves the
promoted value in the list and appends the old scalar at its end. -/
def trackFieldSpec (v1 : String) (rest : List String) : PyVal × List PyVal :=
  match pyIntOfString v1 with
  | some n => (PyVal.vInt n, rest.map PyVal.vStr)
  | none =>
      match firstIntIn rest with
      | some n => (PyVal.vInt n, rest.map PyVal.vStr ++ [PyVal.vStr v1])
      | none => (PyVal.vStr v1, rest.map PyVal.vStr)


/-- The raw occurrences (texts) of one normalized attribute name in a
child-element list, in document order. -/
def occStrings : List XElem → String → List String
  | [], _ => []
  | e :: es, m =>
      (if normalizeName e.tag == m then
        (match e.text with
         | some w => [w]
         | none => []) else []) ++ occStrings es m

/-- Whether a name carries the `other_` repeat marker as its prefix. -/
def isOtherName (s : String) : Bool :=
  List.isPrefixOf ("other_".data) s.data

theorem getattr_nil (k : String) : getattr [] k = PyVal.vNone := rfl

theorem getattr_cons_eq (k : String) (v : PyVal) (d : Dict) :
    getattr ((k, v) :: d) k = v := by
  simp [getattr, getAttrRaw, List.find?]

theorem getattr_cons_ne (k k' : String) (v : PyVal) (d : Dict) (h : k' ≠ k) :
    getattr ((k', v) :: d) k = getattr d k := by
  simp [getattr, getAttrRaw, List.find?, beq_eq_false_iff_ne.mpr h]

theorem setAttr_cons_ne (k k' : String) (v v' : PyVal) (d : Dict) (h : k' ≠ k) :
    setAttr ((k', v') :: d) k v = (k', v') :: setAttr d k v := by
  simp only [setAttr, List.find?, beq_eq_false_iff_ne.mpr h]
  by_cases hf : (d.find? (fun p => p.1 == k)).isSome
  · simp only [hf, if_true, List.map_cons]
    simp [h]
  · simp only [Bool.not_eq_true] at hf
    simp [hf]

theorem other_prefixed_ne_track_type (n : String) : "other_" ++ n ≠ "track_type" := by
  intro h
  have h2 : ("other_" ++ n).data = "track_type".data := congrArg String.data h
  rw [String.data_append] at h2
  have h6 : some 'o' = some 't' := by
    have e1 : ("other_".data ++ n.data).head? = some 'o' := rfl
    have e2 : "track_type".data.head? = some 't' := rfl
    rw [← e1, ← e2, h2]
  exact absurd h6 (by decide)

theorem ne_other_prefixed (n : String) : n ≠ "other_" ++ n := by
  intro h
  have h2 : n.data.length = ("other_" ++ n).data.length :=
    congrArg (fun s => s.data.length) h
  rw [String.data_append] at h2
  rw [show "other_".data = ['o', 't', 'h', 'e', 'r', '_'] from rfl] at h2
  simp at h2
  omega

theorem isOtherName_append (s : String) : isOtherName ("other_" ++ s) = true := by
  simp only [isOtherName, String.data_append]
  rw [List.isPrefixOf_iff_prefix]
  exact List.prefix_append _ _

theorem other_ne_of_not_other (m x : String) (h : isOtherName m = false) :
    "other_" ++ x ≠ m := by
  intro he
  rw [← he] at h
  rw [isOtherName_append] at h
  cases h

theorem not_other_ne_other (m x : String) (h : isOtherName m = false) :
    m ≠ "other_" ++ x :=
  fun he => other_ne_of_not_other m x h he.symm

theorem other_append_left_cancel {a b : String}
    (h : "other_" ++ a = "other_" ++ b) : a = b := by
  have h2 : ("other_" ++ a).data = ("other_" ++ b).data := congrArg String.data h
  rw [String.data_append, String.data_append] at h2
  exact String.ext (List.append_cancel_left h2)

theorem getattr_map_replace (d : Dict) (k k' : String) (v : PyVal) (h : k' ≠ k) :
    getattr (d.map (fun p => if p.1 == k then (k, v) else p)) k' = getattr d k' := by
  induction d with
  | nil => rfl
  | cons a d ih =>
      rcases a with ⟨ak, av⟩
      by_cases hak : ak = k
      · subst hak
        simp only [List.map_cons, beq_self_eq_true, if_true]
        rw [getattr_cons_ne _ _ _ _ (Ne.symm h), getattr_cons_ne _ _ _ _ (Ne.symm h)]
        exact ih
      · simp only [List.map_cons, beq_eq_false_iff_ne.mpr hak, Bool.false_eq_true,
          if_false]
        by_cases hak' : ak = k'
        · subst hak'
          rw [getattr_cons_eq, getattr_cons_eq]
        · rw [getattr_cons_ne _ _ _ _ hak', getattr_cons_ne _ _ _ _ hak']
          exact ih

theorem getattr_setAttr_self (d : Dict) (k : String) (v : PyVal) :
    getattr (setAttr d k v) k = v := by
  induction d with
  | nil => simp [setAttr, getattr, getAttrRaw, List.find?]
  | cons a d ih =>
      rcases a with ⟨ak, av⟩
      by_cases hk : ak = k
      · subst hk
        simp only [setAttr, List.find?, beq_self_eq_true, Option.isSome_some,
          if_true, List.map_cons]
        rw [getattr_cons_eq]
      · rw [setAttr_cons_ne _ _ _ _ _ hk, getattr_cons_ne _ _ _ _ hk]
        exact ih

theorem getattr_setAttr_other (d : Dict) (k k' : String) (v : PyVal) (h : k' ≠ k) :
    getattr (setAttr d k v) k' = getattr d k' := by
  induction d with
  | nil =>
      simp [setAttr, getattr, getAttrRaw, List.find?,
        beq_eq_false_iff_ne.mpr (Ne.symm h)]
  | cons a d ih =>
      rcases a with ⟨ak, av⟩
      by_cases hk : ak = k
      · subst hk
        simp only [setAttr, List.find?, beq_self_eq_true, Option.isSome_some,
          if_true, List.map_cons]
        rw [getattr_cons_ne _ _ _ _ (Ne.symm h)]
        rw [getattr_map_replace d _ k' v h]
        rw [getattr_cons_ne _ _ _ _ (Ne.symm h)]
      · rw [setAttr_cons_ne _ _ _ _ _ hk]
        by_cases hak' : ak = k'
        · subst hak'
          rw [getattr_cons_eq, getattr_cons_eq]
        · rw [getattr_cons_ne _ _ _ _ hak', getattr_cons_ne _ _ _ _ hak']
          exact ih

theorem bind_ok {α β : Type} (x : α) (f : α → Except PyErr β) :
    (Except.ok x >>= f : Except PyErr β) = f x := rfl

/-- The dict view at one name after the first pass has seen the raw
occurrences `l` of that name: absent for zero occurrences, a scalar for
one, a scalar plus the `other_` tail list for two or more. -/
def NameView (d : Dict) (m : String) : List String → Prop
  | [] => getattr d m = PyVal.vNone ∧ getattr d ("other_" ++ m) = PyVal.vNone
  | w :: ws =>
      getattr d m = PyVal.vStr w ∧
      (if ws = [] then getattr d ("other_" ++ m) = PyVal.vNone
       else getattr d ("other_" ++ m) = PyVal.vList (ws.map PyVal.vStr))

theorem NameView_congr (d d' : Dict) (m : String) (l : List String)
    (h1 : getattr d' m = getattr d m)
    (h2 : getattr d' ("other_" ++ m) = getattr d ("other_" ++ m)) :
    NameView d m l → NameView d' m l := by
  cases l with
  | nil =>
      intro h
      exact ⟨by rw [h1]; exact h.1, by rw [h2]; exact h.2⟩
  | cons w ws =>
      intro h
      refine ⟨by rw [h1]; exact h.1, ?_⟩
      by_cases hws : ws = []
      · rw [if_pos hws]
        have hb := h.2
        rw [if_pos hws] at hb
        rw [h2]; exact hb
      · rw [if_neg hws]
        have hb := h.2
        rw [if_neg hws] at hb
        rw [h2]; exact hb

/-- Invariant of the first construction pass: every plain name's dict
view matches its occurrences so far, and `repeated_attributes` holds
exactly the (name, `other_` name) pairs of names seen at least twice. -/
def Inv (st : BuildState) (acc : String → List String) : Prop :=
  (∀ m, isOtherName m = false → m ≠ "track_type" → NameView st.dict m (acc m)) ∧
  (∀ pq ∈ st.repeated, ∃ m, isOtherName m = false ∧ m ≠ "track_type" ∧
    pq = (m, "other_" ++ m) ∧ 2 ≤ (acc m).length) ∧
  (∀ m, isOtherName m = false → m ≠ "track_type" → 2 ≤ (acc m).length →
    (m, "other_" ++ m) ∈ st.repeated)

/-- One step of the first pass preserves the invariant, extending the
processed-occurrence map at the element's normalized name. -/
theorem addElem_step (st : BuildState) (acc : String → List String) (e : XElem)
    (w : String) (hw : e.text = some w)
    (hOe : isOtherName (normalizeName e.tag) = false)
    (hTe : normalizeName e.tag ≠ "track_type")
    (hInv : Inv st acc) :
    ∃ st', addElem st e = .ok st' ∧
      Inv st' (fun m => if m = normalizeName e.tag then acc m ++ [w] else acc m) := by
  have hview := hInv.1 (normalizeName e.tag) hOe hTe
  cases hacc : acc (normalizeName e.tag) with
  | nil =>
      rw [hacc] at hview
      refine ⟨⟨setAttr st.dict (normalizeName e.tag) (PyVal.vStr w), st.repeated⟩,
        ?_, ?_, ?_, ?_⟩
      · simp only [addElem, hw]
        rw [hview.1]
        rfl
      · intro m hOm hTm
        simp only []
        by_cases hm : m = normalizeName e.tag
        · subst hm
          rw [if_pos rfl, hacc]
          simp only [List.nil_append]
          refine ⟨getattr_setAttr_self _ _ _, ?_⟩
          rw [if_pos rfl]
          rw [getattr_setAttr_other _ _ _ _ (other_ne_of_not_other _ _ hOm)]
          exact hview.2
        · rw [if_neg hm]
          refine NameView_congr st.dict _ m (acc m) ?_ ?_ (hInv.1 m hOm hTm)
          · exact getattr_setAttr_other _ _ _ _ hm
          · exact getattr_setAttr_other _ _ _ _
              (other_ne_of_not_other (normalizeName e.tag) m hOe)
      · intro pq hpq
        obtain ⟨m, hOm, hTm, hpq2, hlen⟩ := hInv.2.1 pq hpq
        refine ⟨m, hOm, hTm, hpq2, ?_⟩
        simp only []
        by_cases hm : m = normalizeName e.tag
        · rw [if_pos hm]
          simp only [List.length_append, List.length_singleton]
          omega
        · rw [if_neg hm]; exact hlen
      · intro m hOm hTm hlen
        simp only [] at hlen
        by_cases hm : m = normalizeName e.tag
        · rw [if_pos hm, hm, hacc] at hlen
          simp at hlen
        · rw [if_neg hm] at hlen
          exact hInv.2.2 m hOm hTm hlen
  | cons w1 ws0 =>
      rw [hacc] at hview
      have hv1 : getattr st.dict (normalizeName e.tag) = PyVal.vStr w1 := hview.1
      have hnew : ∃ st',
          addElem st e = .ok st' ∧
          st'.dict = setAttr st.dict ("other_" ++ normalizeName e.tag)
            (PyVal.vList ((ws0 ++ [w]).map PyVal.vStr)) ∧
          st'.repeated = st.repeated ++
            [(normalizeName e.tag, "other_" ++ normalizeName e.tag)] := by
        by_cases hws0 : ws0 = []
        · subst hws0
          have hv2 : getattr st.dict ("other_" ++ normalizeName e.tag) =
              PyVal.vNone := by
            have hb := hview.2
            rwa [if_pos rfl] at hb
          refine ⟨⟨setAttr st.dict ("other_" ++ normalizeName e.tag)
              (PyVal.vList ((([] : List String) ++ [w]).map PyVal.vStr)),
            st.repeated ++
              [(normalizeName e.tag, "other_" ++ normalizeName e.tag)]⟩,
            ?_, rfl, rfl⟩
          simp only [addElem, hw]
          rw [hv1]
          rw [show (PyVal.vStr w1 == PyVal.vNone) = false from rfl]
          simp only [Bool.false_eq_true, if_false]
          rw [hv2]
          rfl
        · have hv2 : getattr st.dict ("other_" ++ normalizeName e.tag) =
              PyVal.vList (ws0.map PyVal.vStr) := by
            have hb := hview.2
            rwa [if_neg hws0] at hb
          refine ⟨⟨setAttr st.dict ("other_" ++ normalizeName e.tag)
              (PyVal.vList ((ws0 ++ [w]).map PyVal.vStr)),
            st.repeated ++
              [(normalizeName e.tag, "other_" ++ normalizeName e.tag)]⟩,
            ?_, rfl, rfl⟩
          simp only [addElem, hw]
          rw [hv1]
          rw [show (PyVal.vStr w1 == PyVal.vNone) = false from rfl]
          simp only [Bool.false_eq_true, if_false]
          rw [hv2]
          rw [List.map_append]
          rfl
      obtain ⟨st', hstep, hdict, hrep⟩ := hnew
      refine ⟨st', hstep, ?_, ?_, ?_⟩
      · intro m hOm hTm
        simp only []
        rw [hdict]
        by_cases hm : m = normalizeName e.tag
        · subst hm
          rw [if_pos rfl, hacc]
          simp only [List.cons_append]
          refine ⟨?_, ?_⟩
          · rw [getattr_setAttr_other _ _ _ _ (not_other_ne_other _ _ hOm)]
            exact hv1
          · rw [if_neg (by simp)]
            rw [getattr_setAttr_self]
        · rw [if_neg hm]
          refine NameView_congr st.dict _ m (acc m) ?_ ?_ (hInv.1 m hOm hTm)
          · exact getattr_setAttr_other _ _ _ _ (not_other_ne_other m _ hOm)
          · exact getattr_setAttr_other _ _ _ _
              (fun he => hm (other_append_left_cancel he))
      · intro pq hpq
        rw [hrep] at hpq
        rcases List.mem_append.mp hpq with hpq | hpq
        · obtain ⟨m, hOm, hTm, hpq2, hlen⟩ := hInv.2.1 pq hpq
          refine ⟨m, hOm, hTm, hpq2, ?_⟩
          simp only []
          by_cases hm : m = normalizeName e.tag
          · rw [if_pos hm]
            simp only [List.length_append, List.length_singleton]
            omega
          · rw [if_neg hm]; exact hlen
        · rw [List.mem_singleton] at hpq
          refine ⟨normalizeName e.tag, hOe, hTe, hpq, ?_⟩
          show 2 ≤ (if normalizeName e.tag = normalizeName e.tag then
            acc (normalizeName e.tag) ++ [w] else acc (normalizeName e.tag)).length
          rw [if_pos rfl, hacc]
          simp
      · intro m hOm hTm hlen
        rw [hrep]
        by_cases hm : m = normalizeName e.tag
        · rw [hm]
          exact List.mem_append_right _ (List.mem_singleton.mpr rfl)
        · simp only [] at hlen
          rw [if_neg hm] at hlen
          exact List.mem_append_left _ (hInv.2.2 m hOm hTm hlen)

/-- The whole first pass: from any invariant-satisfying state, folding
well-formed child elements succeeds and extends the occurrence map by
exactly the occurrences the elements contribute, name by name. -/
theorem phase1_fold :
    ∀ (elems : List XElem),
      (∀ e ∈ elems, e.text.isSome) →
      (∀ e ∈ elems, isOtherName (normalizeName e.tag) = false) →
      (∀ e ∈ elems, normalizeName e.tag ≠ "track_type") →
      ∀ (st : BuildState) (acc : String → List String), Inv st acc →
        ∃ st', List.foldlM addElem st elems = .ok st' ∧
          Inv st' (fun m => acc m ++ occStrings elems m) := by
  intro elems
  induction elems with
  | nil =>
      intro _ _ _ st acc hInv
      refine ⟨st, rfl, ?_⟩
      have hfun : (fun m => acc m ++ occStrings [] m) = acc :=
        funext fun m => by simp [occStrings]
      rw [hfun]
      exact hInv
  | cons e es ih =>
      intro HT HO HTT st acc hInv
      obtain ⟨w, hw⟩ := Option.isSome_iff_exists.mp (HT e (List.mem_cons_self e es))
      obtain ⟨st1, hstep, hInv1⟩ := addElem_step st acc e w hw
        (HO e (List.mem_cons_self e es)) (HTT e (List.mem_cons_self e es)) hInv
      obtain ⟨st', hfold, hInv'⟩ := ih
        (fun x hx => HT x (List.mem_cons_of_mem _ hx))
        (fun x hx => HO x (List.mem_cons_of_mem _ hx))
        (fun x hx => HTT x (List.mem_cons_of_mem _ hx)) st1 _ hInv1
      refine ⟨st', ?_, ?_⟩
      · rw [List.foldlM_cons, hstep]
        simp only [bind_ok]
        exact hfold
      · have hfun : (fun m => acc m ++ occStrings (e :: es) m) =
            (fun m => (if m = normalizeName e.tag then acc m ++ [w] else acc m) ++
              occStrings es m) := by
          funext m
          simp only [occStrings, hw]
          by_cases hm : m = normalizeName e.tag
          · subst hm
            simp [List.append_assoc]
          · simp [beq_eq_false_iff_ne.mpr (Ne.symm hm), hm]
        rw [hfun]
        exact hInv'

/-- The promotion scan, seen through the dict views: the first
int-coercible scanned value becomes the scalar and the old scalar is
appended to the `other_` list, which otherwise keeps every element; if
nothing coerces the dict is returned unchanged. -/
theorem promoteScan_view (d : Dict) (pk v1 : String) (full : List PyVal)
    (hpk : getattr d pk = PyVal.vStr v1)
    (hok : getattr d ("other_" ++ pk) = PyVal.vList full) :
    ∀ scan : List String,
      promoteScan d pk ("other_" ++ pk) (scan.map PyVal.vStr) =
        (match firstIntIn scan with
         | some j => .ok (setAttr (setAttr d pk (PyVal.vInt j)) ("other_" ++ pk)
             (PyVal.vList (full ++ [PyVal.vStr v1])))
         | none => .ok d) := by
  have hneq : pk ≠ "other_" ++ pk := ne_other_prefixed pk
  intro scan
  induction scan with
  | nil => simp [promoteScan, firstIntIn]
  | cons v vs ih =>
      simp only [List.map_cons, promoteScan]
      cases hv : pyIntOfString v with
      | some j =>
          simp only [intOf, hv]
          rw [hpk]
          rw [show getattr (setAttr d pk (PyVal.vInt j)) ("other_" ++ pk) =
              PyVal.vList full from by
            rw [getattr_setAttr_other _ _ _ _ (Ne.symm hneq)]
            exact hok]
          show Except.ok (setAttr (setAttr d pk (PyVal.vInt j)) ("other_" ++ pk)
              (PyVal.vList (full ++ [PyVal.vStr v1]))) = _
          simp [firstIntIn, hv]
      | none =>
          simp only [intOf, hv]
          rw [ih]
          simp [firstIntIn, hv]

/-- One disambiguation iteration on a name still holding its raw view
produces exactly the `trackFieldSpec` view at that name and leaves the
dict view at every other key unchanged. -/
theorem disamb_raw_to_fin (d : Dict) (n v1 : String) (rest : List String)
    (hpk : getattr d n = PyVal.vStr v1)
    (hok : getattr d ("other_" ++ n) = PyVal.vList (rest.map PyVal.vStr)) :
    ∃ d', disambiguate d n ("other_" ++ n) = .ok d' ∧
      getattr d' n = (trackFieldSpec v1 rest).1 ∧
      getattr d' ("other_" ++ n) = PyVal.vList (trackFieldSpec v1 rest).2 ∧
      ∀ k, k ≠ n → k ≠ "other_" ++ n → getattr d' k = getattr d k := by
  have hneq : n ≠ "other_" ++ n := ne_other_prefixed n
  cases hv1 : pyIntOfString v1 with
  | some j =>
      refine ⟨setAttr d n (PyVal.vInt j), ?_, ?_, ?_, ?_⟩
      · simp only [disambiguate, hpk, intOf, hv1]
      · rw [getattr_setAttr_self]
        simp [trackFieldSpec, hv1]
      · rw [getattr_setAttr_other _ _ _ _ (Ne.symm hneq), hok]
        simp [trackFieldSpec, hv1]
      · intro k hk1 _
        exact getattr_setAttr_other _ _ _ _ hk1
  | none =>
      have hd : disambiguate d n ("other_" ++ n) =
          promoteScan d n ("other_" ++ n) (rest.map PyVal.vStr) := by
        simp only [disambiguate, hpk, intOf, hv1]
        rw [hok]
      rw [hd, promoteScan_view d n v1 (rest.map PyVal.vStr) hpk hok rest]
      cases hfi : firstIntIn rest with
      | some j =>
          refine ⟨_, rfl, ?_, ?_, ?_⟩
          · rw [getattr_setAttr_other _ _ _ _ hneq, getattr_setAttr_self]
            simp [trackFieldSpec, hv1, hfi]
          · rw [getattr_setAttr_self]
            simp [trackFieldSpec, hv1, hfi]
          · intro k hk1 hk2
            rw [getattr_setAttr_other _ _ _ _ hk2, getattr_setAttr_other _ _ _ _ hk1]
      | none =>
          refine ⟨d, rfl, ?_, ?_, fun k _ _ => rfl⟩
          · rw [hpk]; simp [trackFieldSpec, hv1, hfi]
          · rw [hok]; simp [trackFieldSpec, hv1, hfi]

/-- A further disambiguation iteration on a name already holding its
final view succeeds and leaves the dict view at every key unchanged. -/
theorem disamb_fin_keep (d : Dict) (n v1 : String) (rest : List String)
    (hpk : getattr d n = (trackFieldSpec v1 rest).1)
    (hok : getattr d ("other_" ++ n) = PyVal.vList (trackFieldSpec v1 rest).2) :
    ∃ d', disambiguate d n ("other_" ++ n) = .ok d' ∧
      ∀ k, getattr d' k = getattr d k := by
  have hneq : n ≠ "other_" ++ n := ne_other_prefixed n
  cases hv1 : pyIntOfString v1 with
  | some j =>
      have hpk' : getattr d n = PyVal.vInt j := by
        rw [hpk]; simp [trackFieldSpec, hv1]
      refine ⟨setAttr d n (PyVal.vInt j), ?_, ?_⟩
      · simp only [disambiguate, hpk', intOf]
      · intro k
        by_cases hk : k = n
        · subst hk
          rw [getattr_setAttr_self, hpk']
        · exact getattr_setAttr_other _ _ _ _ hk
  | none =>
      cases hfi : firstIntIn rest with
      | some j =>
          have hpk' : getattr d n = PyVal.vInt j := by
            rw [hpk]; simp [trackFieldSpec, hv1, hfi]
          refine ⟨setAttr d n (PyVal.vInt j), ?_, ?_⟩
          · simp only [disambiguate, hpk', intOf]
          · intro k
            by_cases hk : k = n
            · subst hk
              rw [getattr_setAttr_self, hpk']
            · exact getattr_setAttr_other _ _ _ _ hk
      | none =>
          have hpk' : getattr d n = PyVal.vStr v1 := by
            rw [hpk]; simp [trackFieldSpec, hv1, hfi]
          have hok' : getattr d ("other_" ++ n) =
              PyVal.vList (rest.map PyVal.vStr) := by
            rw [hok]; simp [trackFieldSpec, hv1, hfi]
          refine ⟨d, ?_, fun k => rfl⟩
          have hd : disambiguate d n ("other_" ++ n) =
              promoteScan d n ("other_" ++ n) (rest.map PyVal.vStr) := by
            simp only [disambiguate, hpk', intOf, hv1]
            rw [hok']
          rw [hd, promoteScan_view d n v1 (rest.map PyVal.vStr) hpk' hok' rest]
          simp [hfi]

/-- Invariant while the disambiguation pass consumes the remaining
repeat entries `R`: every multi-occurrence name's dict view is either
already final, or still raw with its repeat entry pending in `R`; and
every entry of `R` is the (name, `other_` name) pair of some
multi-occurrence name. -/
def Phase2Inv (acc : String → List String) (d : Dict)
    (R : List (String × String)) : Prop :=
  (∀ m w ws, isOtherName m = false → m ≠ "track_type" → acc m = w :: ws → ws ≠ [] →
    ((getattr d m = (trackFieldSpec w ws).1 ∧
      getattr d ("other_" ++ m) = PyVal.vList (trackFieldSpec w ws).2) ∨
     (getattr d m = PyVal.vStr w ∧
      getattr d ("other_" ++ m) = PyVal.vList (ws.map PyVal.vStr) ∧
      (m, "other_" ++ m) ∈ R))) ∧
  (∀ pq ∈ R, ∃ m, isOtherName m = false ∧ m ≠ "track_type" ∧
    pq = (m, "other_" ++ m) ∧ 2 ≤ (acc m).length)

/-- Running the disambiguation pass over the repeat entries finalizes
every multi-occurrence name's view. -/
theorem runDisamb_view (acc : String → List String) :
    ∀ (R : List (String × String)) (d : Dict), Phase2Inv acc d R →
      ∃ d', runDisamb d R = .ok d' ∧ Phase2Inv acc d' [] := by
  intro R
  induction R with
  | nil => intro d h; exact ⟨d, rfl, h⟩
  | cons pq R ih =>
      intro d h
      obtain ⟨m0, hO0, hT0, hpq, hlen⟩ := h.2 pq (List.mem_cons_self pq R)
      subst hpq
      obtain ⟨w0, ws0, hacc0⟩ : ∃ w ws, acc m0 = w :: ws := by
        cases hc : acc m0 with
        | nil => rw [hc] at hlen; simp at hlen
        | cons a l => exact ⟨a, l, rfl⟩
      have hws0 : ws0 ≠ [] := by
        intro hn
        rw [hacc0, hn] at hlen
        simp at hlen
      have hview := h.1 m0 w0 ws0 hO0 hT0 hacc0 hws0
      have hstep : ∃ d1, disambiguate d m0 ("other_" ++ m0) = .ok d1 ∧
          (getattr d1 m0 = (trackFieldSpec w0 ws0).1 ∧
           getattr d1 ("other_" ++ m0) = PyVal.vList (trackFieldSpec w0 ws0).2) ∧
          ∀ k, k ≠ m0 → k ≠ "other_" ++ m0 → getattr d1 k = getattr d k := by
        rcases hview with hfin | ⟨hr1, hr2, _⟩
        · obtain ⟨d1, hd1, hkeep⟩ := disamb_fin_keep d m0 w0 ws0 hfin.1 hfin.2
          exact ⟨d1, hd1, ⟨by rw [hkeep]; exact hfin.1, by rw [hkeep]; exact hfin.2⟩,
            fun k _ _ => hkeep k⟩
        · obtain ⟨d1, hd1, hf1, hf2, hkeep⟩ := disamb_raw_to_fin d m0 w0 ws0 hr1 hr2
          exact ⟨d1, hd1, ⟨hf1, hf2⟩, hkeep⟩
      obtain ⟨d1, hd1, hfin1, hkeep1⟩ := hstep
      have hinv1 : Phase2Inv acc d1 R := by
        constructor
        · intro m w ws hOm hTm haccm hwsm
          by_cases hm : m = m0
          · subst hm
            rw [hacc0] at haccm
            injection haccm with h1 h2
            subst h1
            subst h2
            exact Or.inl hfin1
          · have hk1 : getattr d1 m = getattr d m :=
              hkeep1 m hm (not_other_ne_other m m0 hOm)
            have hk2 : getattr d1 ("other_" ++ m) = getattr d ("other_" ++ m) :=
              hkeep1 _ (other_ne_of_not_other m0 m hO0)
                (fun he => hm (other_append_left_cancel he))
            rcases h.1 m w ws hOm hTm haccm hwsm with hf | ⟨ha, hb, hmem⟩
            · exact Or.inl ⟨by rw [hk1]; exact hf.1, by rw [hk2]; exact hf.2⟩
            · refine Or.inr ⟨by rw [hk1]; exact ha, by rw [hk2]; exact hb, ?_⟩
              rcases List.mem_cons.mp hmem with he | hmem2
              · exact absurd (congrArg Prod.fst he) hm
              · exact hmem2
        · intro pq' hpq'
          exact h.2 pq' (List.mem_cons_of_mem _ hpq')
      obtain ⟨d', hrun, hfin'⟩ := ih d1 hinv1
      refine ⟨d', ?_, hfin'⟩
      simp only [runDisamb]
      rw [hd1]
      simp only [bind_ok]
      exact hrun

/-- C1 counterexample: two occurrences of `Duration`, the first
non-numeric and the second numeric. The promotion keeps the promoted
value in the `other_` list and appends the old scalar, so the list has
length 2 — not occurrences − 1 = 1 as the claim states. -/
theorem other_list_length_counterexample :
    Track.ofElem ⟨"track", [("type", "General")], none,
        [⟨"duration", [], some "3 s", []⟩, ⟨"duration", [], some "3000", []⟩]⟩ =
      .ok ⟨[("track_type", PyVal.vStr "General"), ("duration", PyVal.vInt 3000),
            ("other_duration", PyVal.vList [PyVal.vStr "3000", PyVal.vStr "3 s"])]⟩ ∧
    [PyVal.vStr "3000", PyVal.vStr "3 s"].length ≠ 2 - 1 :=
  ⟨by decide, by decide⟩

/-- C1 (amended): for every track element — with any mix of attributes,
every occurrence carrying text, and no tag normalizing to `track_type`
or to an `other_`-prefixed name — construction succeeds and, for every
attribute name with two or more raw occurrences `v1 :: rest`, the final
scalar is the integer of the first coercible value scanning the
original scalar and then the `other_` list in order (the original text
when none coerces); the `other_` list has length occurrences − 1 when
the original scalar itself coerces or nothing does, but length
occurrences when the promotion comes from the list: the promoted value
stays in the list and the old scalar is appended at its end. -/
theorem repeated_attribute_disambiguation (ty : String) (elems : List XElem)
    (HT : ∀ e ∈ elems, e.text.isSome)
    (HO : ∀ e ∈ elems, isOtherName (normalizeName e.tag) = false)
    (HTT : ∀ e ∈ elems, normalizeName e.tag ≠ "track_type") :
    ∃ tr, Track.init ty elems = .ok tr ∧
      ∀ (n v1 : String) (rest : List String),
        isOtherName n = false → n ≠ "track_type" →
        occStrings elems n = v1 :: rest → rest ≠ [] →
        Track.getattr tr n = (trackFieldSpec v1 rest).1 ∧
        Track.getattr tr ("other_" ++ n) = PyVal.vList (trackFieldSpec v1 rest).2 ∧
        (trackFieldSpec v1 rest).2.length =
          (if pyIntOfString v1 = none ∧ (firstIntIn rest).isSome
            then rest.length + 1 else rest.length) := by
  have hstart : Inv ⟨[("track_type", PyVal.vStr ty)], []⟩ (fun _ => []) := by
    refine ⟨?_, ?_, ?_⟩
    · intro m hOm hTm
      refine ⟨?_, ?_⟩
      · rw [getattr_cons_ne _ _ _ _ (Ne.symm hTm)]
        exact getattr_nil m
      · rw [getattr_cons_ne _ _ _ _ (other_prefixed_ne_track_type m).symm]
        exact getattr_nil _
    · intro pq hpq
      exact absurd hpq (List.not_mem_nil pq)
    · intro m _ _ hlen
      simp at hlen
  obtain ⟨st, hfold, hInvF⟩ := phase1_fold elems HT HO HTT
    ⟨[("track_type", PyVal.vStr ty)], []⟩ (fun _ => []) hstart
  have hInvF' : Inv st (fun m => occStrings elems m) := hInvF
  have hP2 : Phase2Inv (fun m => occStrings elems m) st.dict st.repeated := by
    constructor
    · intro m w ws hOm hTm haccm hwsm
      have hnv := hInvF'.1 m hOm hTm
      simp only [] at hnv
      simp only [] at haccm
      rw [haccm] at hnv
      refine Or.inr ⟨hnv.1, ?_, ?_⟩
      · have hb := hnv.2
        rwa [if_neg hwsm] at hb
      · refine hInvF'.2.2 m hOm hTm ?_
        show 2 ≤ (occStrings elems m).length
        rw [haccm]
        have hp := List.length_pos.mpr hwsm
        simp only [List.length_cons]
        omega
    · intro pq hpq
      exact hInvF'.2.1 pq hpq
  obtain ⟨d', hrun, hfin⟩ :=
    runDisamb_view (fun m => occStrings elems m) st.repeated st.dict hP2
  refine ⟨⟨d'⟩, ?_, ?_⟩
  · simp only [Track.init]
    rw [hfold]
    simp only [bind_ok]
    rw [hrun]
    simp only [bind_ok]
  · intro n v1 rest hOn hTn hocc hrest
    have hn := hfin.1 n v1 rest hOn hTn hocc hrest
    rcases hn with hf | ⟨_, _, hmem⟩
    · refine ⟨hf.1, hf.2, ?_⟩
      cases hv1 : pyIntOfString v1 with
      | some j => simp [trackFieldSpec, hv1]
      | none =>
          cases hfi : firstIntIn rest with
          | some j => simp [trackFieldSpec, hv1, hfi]
          | none => simp [trackFieldSpec, hv1, hfi]
    · exact absurd hmem (List.not_mem_nil _)

/-- A Video track with a singly-occurring `Width` attribute alongside a
twice-occurring `Duration` whose second value is the numeric one. -/
def exVideoElems : List XElem :=
  [⟨"Width", [], some "1920", []⟩,
   ⟨"Duration", [], some "3 s", []⟩,
   ⟨"Duration", [], some "3000", []⟩]

theorem repeated_attribute_disambiguation_witness :
    ∃ tr, Track.init "Video" exVideoElems = .ok tr ∧
      ∀ (n v1 : String) (rest : List String),
        isOtherName n = false → n ≠ "track_type" →
        occStrings exVideoElems n = v1 :: rest → rest ≠ [] →
        Track.getattr tr n = (trackFieldSpec v1 rest).1 ∧
        Track.getattr tr ("other_" ++ n) = PyVal.vList (trackFieldSpec v1 rest).2 ∧
        (trackFieldSpec v1 rest).2.length =
          (if pyIntOfString v1 = none ∧ (firstIntIn rest).isSome
            then rest.length + 1 else rest.length) :=
  repeated_attribute_disambiguation "Video" exVideoElems
    (by decide) (by decide) (by decide)

end PyMediaInfo
